import Mathlib

/-!
Verification development for the CBT (changed-block tracking) backup tool.

The development shallowly embeds the two source modules:

* `cbt_bitmap.py` — pure bitmap-to-extent extraction and statistics.
  A decoded bitmap is modelled as a `List Bool` (one entry per 64 KiB
  block, in bit order); base64 transport decoding and the byte-to-bit
  view are outside the model, which works on the decoded bit sequence.
* `backup.py` — the backup orchestration.  Remote API calls and file
  writes are modelled as an event trace; an uncaught Python exception
  (a failed `assert`) is modelled by cutting the trace short and
  returning a `false` success flag.

The transfer engine (`vdi_downloader.py`) is not part of the sources;
where a claim needs it, it is modelled from the spec and marked as such.
-/

/-! ## Extent extraction (`cbt_bitmap.py`) -/

-- 64K blocks
def BLOCK_SIZE : Nat := 64 * 1024

/-- The loop of `_bitmap_to_extents`: scans the remaining bits `bs`,
`i` being the index of the first bit of `bs` in the whole bitmap, and
`run` the current run of set bits (`some (start, length)`) if one is
open, mirroring the `start`/`length` variables of the Python loop.
The final `yield` outside the loop is the `[]`/`some` case. -/
def bitmapToExtentsGo : List Bool → Nat → Option (Nat × Nat) → List (Nat × Nat)
  | [], _, none => []
  | [], _, some (s, len) => [(s * BLOCK_SIZE, len * BLOCK_SIZE)]
  | b :: bs, i, none =>
      if b then bitmapToExtentsGo bs (i + 1) (some (i, 1))
      else bitmapToExtentsGo bs (i + 1) none
  | b :: bs, i, some (s, len) =>
      if b then bitmapToExtentsGo bs (i + 1) (some (s, len + 1))
      else (s * BLOCK_SIZE, len * BLOCK_SIZE) :: bitmapToExtentsGo bs (i + 1) none

/-- `_bitmap_to_extents`: the sequence of `(offset, length)` pairs (in
bytes) yielded for a bitmap. -/
def _bitmap_to_extents (cbt_bitmap : List Bool) : List (Nat × Nat) :=
  bitmapToExtentsGo cbt_bitmap 0 none

/-- The counting loop of `_get_changed_blocks_size` (`modified` counter). -/
def changedBlocksLoop : List Bool → Nat → Nat
  | [], modified => modified
  | b :: bs, modified => changedBlocksLoop bs (if b then modified + 1 else modified)

/-- `_get_changed_blocks_size`: overall size in bytes of the changed
64K blocks of the bitmap. -/
def _get_changed_blocks_size (cbt_bitmap : List Bool) : Nat :=
  changedBlocksLoop cbt_bitmap 0 * BLOCK_SIZE

/-- `_get_disk_size`: the bitmap has one bit per block of the disk. -/
def _get_disk_size (cbt_bitmap : List Bool) : Nat :=
  cbt_bitmap.length * BLOCK_SIZE

/-- Number of set bits of a bitmap (specification-side popcount used
to relate the two changed-size computations of the source). -/
def countTrue : List Bool → Nat
  | [] => 0
  | b :: bs => (if b then 1 else 0) + countTrue bs

/-- Result of `_get_extent_stats` (a Python dict in the source).
Python's float average is modelled as an exact rational. -/
structure ExtentStats where
  average_extent_length : Option ℚ
  max_extent_length : Option Nat
  min_extent_length : Option Nat
  changed_blocks_size : Nat
  extents : Nat
deriving DecidableEq

/-- The accumulation loop of `_get_extent_stats`: state is
`(max_length, min_length, changed_blocks_size, n)`. -/
def extentStatsLoop : List (Nat × Nat) → Option Nat → Option Nat → Nat → Nat →
    Option Nat × Option Nat × Nat × Nat
  | [], mx, mn, changed, n => (mx, mn, changed, n)
  | (_, length) :: rest, mx, mn, changed, n =>
      extentStatsLoop rest
        (some (match mx with | none => length | some m => max m length))
        (some (match mn with | none => length | some m => min m length))
        (changed + length) (n + 1)

/-- `_get_extent_stats`. -/
def _get_extent_stats (extents : List (Nat × Nat)) : ExtentStats :=
  let r := extentStatsLoop extents none none 0 0
  { average_extent_length := if r.2.2.2 = 0 then none else some ((r.2.2.1 : ℚ) / (r.2.2.2 : ℚ))
    max_extent_length := r.1
    min_extent_length := r.2.1
    changed_blocks_size := r.2.2.1
    extents := r.2.2.2 }

/-- The `CbtBitmap` class, holding the decoded bitmap. -/
structure CbtBitmap where
  bitmap : List Bool
deriving DecidableEq

/-- The Python generator object returned by `_bitmap_to_extents` (and
hence by `CbtBitmap.get_extents`): its suspended state is the remaining
bits, the current index, and the open run, mirroring the local
variables at the suspension point. -/
structure ExtentGen where
  rest : List Bool
  pos : Nat
  run : Option (Nat × Nat)
deriving DecidableEq

/-- Resuming the generator: runs the loop of `_bitmap_to_extents` until
the next `yield` (returning the yielded extent and the new suspended
state) or until the function returns (`none`, i.e. `StopIteration`). -/
def genNext : List Bool → Nat → Option (Nat × Nat) → Option ((Nat × Nat) × ExtentGen)
  | [], _, none => none
  | [], p, some (s, len) => some ((s * BLOCK_SIZE, len * BLOCK_SIZE), ⟨[], p, none⟩)
  | b :: bs, i, none =>
      if b then genNext bs (i + 1) (some (i, 1)) else genNext bs (i + 1) none
  | b :: bs, i, some (s, len) =>
      if b then genNext bs (i + 1) (some (s, len + 1))
      else some ((s * BLOCK_SIZE, len * BLOCK_SIZE), ⟨bs, i + 1, none⟩)

/-- One resumption step of a generator object. -/
def ExtentGen.next (g : ExtentGen) : Option ((Nat × Nat) × ExtentGen) :=
  genNext g.rest g.pos g.run

/-- Fueled traversal: repeatedly resume the generator, collecting the
yielded extents, and return them with the final generator state. -/
def drainGo : Nat → ExtentGen → List (Nat × Nat) × ExtentGen
  | 0, g => ([], g)
  | fuel + 1, g =>
    match g.next with
    | none => ([], g)
    | some (e, g') =>
      let r := drainGo fuel g'
      (e :: r.1, r.2)

/-- A full traversal of the generator (a `for` loop over it): the
generator yields at most one extent per remaining bit plus a final
flush, so this fuel exhausts it. -/
def ExtentGen.drain (g : ExtentGen) : List (Nat × Nat) × ExtentGen :=
  drainGo (g.rest.length + 1) g

/-- `CbtBitmap.get_extents`: returns a fresh generator over the bitmap. -/
def CbtBitmap.get_extents (b : CbtBitmap) : ExtentGen :=
  ⟨b.bitmap, 0, none⟩

/-- Result of `CbtBitmap.get_statistics`: the extent statistics plus
the `"size"` entry. -/
structure Statistics where
  average_extent_length : Option ℚ
  max_extent_length : Option Nat
  min_extent_length : Option Nat
  changed_blocks_size : Nat
  extents : Nat
  size : Nat
deriving DecidableEq

/-- `CbtBitmap.get_statistics`: reduces `_get_extent_stats` over the
sequence of extents yielded for the bitmap and adds the disk size. -/
def CbtBitmap.get_statistics (b : CbtBitmap) : Statistics :=
  let stats := _get_extent_stats (_bitmap_to_extents b.bitmap)
  { average_extent_length := stats.average_extent_length
    max_extent_length := stats.max_extent_length
    min_extent_length := stats.min_extent_length
    changed_blocks_size := stats.changed_blocks_size
    extents := stats.extents
    size := _get_disk_size b.bitmap }

/-! ## Backup chain resolver (`backup.py`) -/

/-- A snapshot VDI: its UUID and its `snapshot_time`.  UUIDs and
timestamps are modelled as naturals. -/
structure Snap where
  uuid : Nat
  snapshot_time : Nat
deriving DecidableEq

/-- The comparison underlying `sorted(snapshots, key=self._snapshot_timestamp,
reverse=True)`: `a` may come before `b` iff `a`'s timestamp is at least
`b`'s.  A stable sort with this relation is exactly Python's stable
descending sort. -/
def timeDescLE (a b : Snap) : Prop := b.snapshot_time ≤ a.snapshot_time

instance : DecidableRel timeDescLE := fun a b => Nat.decLe b.snapshot_time a.snapshot_time

instance : IsTotal Snap timeDescLE :=
  ⟨fun a b => Nat.le_total b.snapshot_time a.snapshot_time⟩

instance : IsTrans Snap timeDescLE :=
  ⟨fun _ _ _ h1 h2 => Nat.le_trans h2 h1⟩

/-- `_get_local_backup_of_snapshot`: scan all local VDI backup files
(modelled by their names, which are VDI UUIDs) for one whose name is
the snapshot's UUID. -/
def _get_local_backup_of_snapshot (backups : List Nat) (snapshot : Snap) : Option Nat :=
  backups.find? (· == snapshot.uuid)

/-- `_get_latest_backup_of_vdi`: sort the parent VDI's snapshots from
newest to oldest (Python's `sorted` is stable; no secondary key is
used), pair each with its local backup, drop pairs with no local
backup, and return the first pair if any. -/
def _get_latest_backup_of_vdi (snapshots : List Snap) (backups : List Nat) :
    Option (Snap × Nat) :=
  let snapshots_from_newest_to_oldest := List.insertionSort timeDescLE snapshots
  let backups_from_newest_to_oldest := snapshots_from_newest_to_oldest.filterMap
    (fun s => (_get_local_backup_of_snapshot backups s).map (fun b => (s, b)))
  backups_from_newest_to_oldest.head?

/-! ## Backup orchestration (`backup.py`) -/

/-- A VDI of the VM snapshot, with the data the orchestration consults:
its UUID, whether CBT is enabled on it, the md5 digest of the local
backup file the downloader produces for it, and the digest the server
computes over the VDI. -/
structure Disk where
  uuid : Nat
  cbt_enabled : Bool
  backup_checksum : Nat
  vdi_checksum : Nat
deriving DecidableEq

/-- `_compare_checksums` compares the local and server digests; the
source `assert`s their equality, so the orchestration continues iff
this is `true`. -/
def _compare_checksums (d : Disk) : Bool :=
  d.backup_checksum == d.vdi_checksum

/-- Observable side effects of the orchestration, in order. -/
inductive Event where
  /-- `VDI.enable_cbt` on one VDI of the VM. -/
  | cbtEnabled (uuid : Nat)
  /-- `_get_new_backup_dir` created the timestamped directory. -/
  | dirCreated
  /-- `_save_vm_metadata` wrote the `VM_metadata` file. -/
  | metadataSaved
  /-- `VM.snapshot` created the VM snapshot. -/
  | snapshotTaken
  /-- the downloader wrote the backup file of one VDI. -/
  | wrote (uuid : Nat)
  /-- `VM.destroy` of the VM snapshot. -/
  | vmDestroyed
  /-- `VDI.data_destroy` of one VDI. -/
  | dataDestroyed (uuid : Nat)
  /-- `VDI.destroy` of one VDI. -/
  | vdiDestroyed (uuid : Nat)
deriving DecidableEq

/-- `_vdi_backup` on one VDI: the downloader writes the backup file,
then `_compare_checksums` either passes or raises `AssertionError`. -/
def _vdi_backup (d : Disk) : List Event × Bool :=
  ([Event.wrote d.uuid], _compare_checksums d)

/-- The per-VDI loop of `_vm_backup`: an exception from `_vdi_backup`
propagates, cutting the trace short with a `false` flag. -/
def vdiBackupLoop : List Disk → List Event × Bool
  | [] => ([], true)
  | d :: ds =>
    let r := _vdi_backup d
    if r.2 then
      let rest := vdiBackupLoop ds
      (r.1 ++ rest.1, rest.2)
    else (r.1, false)

/-- The retirement operation `_vm_backup` applies to one VDI during
server-side cleanup. -/
def retireEvent (d : Disk) : Event :=
  if d.cbt_enabled then Event.dataDestroyed d.uuid else Event.vdiDestroyed d.uuid

/-- `_vm_backup`: back up every VDI of the VM snapshot; if all succeed,
destroy the VM snapshot and then retire each VDI.  An exception from
the loop propagates, skipping the cleanup. -/
def _vm_backup (vdis : List Disk) : List Event × Bool :=
  let r := vdiBackupLoop vdis
  if r.2 then
    (r.1 ++ Event.vmDestroyed :: vdis.map retireEvent, true)
  else (r.1, false)

/-- `BackupConfig.backup`: enable CBT on the VM's VDIs, create the
backup directory, save the VM metadata, snapshot the VM, then run
`_vm_backup` over the snapshot's VDIs. -/
def backup (vmDisks snapDisks : List Disk) : List Event × Bool :=
  let r := _vm_backup snapDisks
  (vmDisks.map (fun d => Event.cbtEnabled d.uuid) ++
    Event.dirCreated :: Event.metadataSaved :: Event.snapshotTaken :: r.1, r.2)

/-- Index of the first occurrence of `a` in `l` (`l.length` if absent). -/
def firstIdx {α : Type} [DecidableEq α] : List α → α → Nat
  | [], _ => 0
  | x :: xs, a => if x = a then 0 else firstIdx xs a + 1

/-- `a` occurs in `t` and its first occurrence is before the first
occurrence of `b`. -/
def occursBefore {α : Type} [DecidableEq α] (t : List α) (a b : α) : Prop :=
  a ∈ t ∧ b ∈ t ∧ firstIdx t a < firstIdx t b

instance {α : Type} [DecidableEq α] (t : List α) (a b : α) :
    Decidable (occursBefore t a b) := by
  unfold occursBefore; infer_instance

/-! ## Transfer engine, modelled from the spec

The transfer engine lives in `vdi_downloader.py`, which is not among
the sources; the definitions below follow the spec's description of
its two modes.  Disk contents are byte lists. -/

/-- The chunking loop of the full transfer: emit one chunk of
`chunkSize` bytes per step until the remaining disk is exhausted.  The
first argument bounds the number of steps; with a positive chunk size,
`disk.length` steps always suffice. -/
def fullChunks (chunkSize : Nat) : Nat → List Nat → List Nat
  | _, [] => []
  | 0, _ => []
  | fuel + 1, disk => disk.take chunkSize ++ fullChunks chunkSize fuel (disk.drop chunkSize)

/-- Modelled from the spec: `full_vdi_backup` of the transfer engine
(`vdi_downloader.py`, not present in the sources) streams the disk
image from the remote host in fixed-size chunks sequentially from
offset 0 to disk size, writing each chunk at the matching offset of
the new backup file. -/
def full_vdi_backup (chunkSize : Nat) (disk : List Nat) : List Nat :=
  if chunkSize = 0 then [] else fullChunks chunkSize disk.length disk

/-- Whether byte offset `i` lies inside one of the changed extents. -/
def inSomeExtent (extents : List (Nat × Nat)) (i : Nat) : Bool :=
  extents.any (fun e => decide (e.1 ≤ i) && decide (i < e.1 + e.2))

/-- Modelled from the spec: `incremental_vdi_backup` of the transfer
engine (`vdi_downloader.py`, not present in the sources): for every
byte offset of the new disk, bytes inside a changed extent are fetched
from the remote host (the current disk content), all other bytes are
copied from the prior local backup file. -/
def incremental_vdi_backup (extents : List (Nat × Nat)) (current prior : List Nat) :
    List Nat :=
  (List.range current.length).map
    (fun i => if inSomeExtent extents i then current.getD i 0 else prior.getD i 0)

/-! ## Lemmas about extent extraction -/

theorem BLOCK_SIZE_eq : BLOCK_SIZE = 65536 := rfl

/-- Every extent produced from the `none` state at index `i` starts at
or after byte `i * BLOCK_SIZE`; from an open run starting at block `s`,
at or after byte `s * BLOCK_SIZE`. -/
theorem bitmapToExtentsGo_lb (bs : List Bool) : ∀ i : Nat,
    (∀ e ∈ bitmapToExtentsGo bs i none, i * BLOCK_SIZE ≤ e.1) ∧
    (∀ s len, s ≤ i → ∀ e ∈ bitmapToExtentsGo bs i (some (s, len)),
      s * BLOCK_SIZE ≤ e.1) := by
  induction bs with
  | nil =>
    intro i
    constructor
    · intro e he
      simp [bitmapToExtentsGo] at he
    · intro s len _ e he
      simp [bitmapToExtentsGo] at he
      subst he
      simp
  | cons b bs ih =>
    intro i
    constructor
    · intro e he
      cases b with
      | false =>
        simp only [bitmapToExtentsGo, if_neg Bool.false_ne_true] at he
        have h1 := (ih (i + 1)).1 e he
        simp only [BLOCK_SIZE_eq] at h1 ⊢
        omega
      | true =>
        simp only [bitmapToExtentsGo, if_pos rfl] at he
        have h1 := (ih (i + 1)).2 i 1 (Nat.le_succ i) e he
        exact h1
    · intro s len hs e he
      cases b with
      | false =>
        simp only [bitmapToExtentsGo, if_neg Bool.false_ne_true, List.mem_cons] at he
        rcases he with he | he
        · subst he; simp
        · have h1 := (ih (i + 1)).1 e he
          simp only [BLOCK_SIZE_eq] at h1 ⊢
          omega
      | true =>
        simp only [bitmapToExtentsGo, if_pos rfl] at he
        exact (ih (i + 1)).2 s (len + 1) (Nat.le_succ_of_le hs) e he

/-- Extents are emitted in non-overlapping increasing order. -/
theorem bitmapToExtentsGo_pairwise (bs : List Bool) : ∀ i : Nat,
    List.Pairwise (fun e1 e2 : Nat × Nat => e1.1 + e1.2 ≤ e2.1)
      (bitmapToExtentsGo bs i none) ∧
    (∀ s len, s + len ≤ i →
      List.Pairwise (fun e1 e2 : Nat × Nat => e1.1 + e1.2 ≤ e2.1)
        (bitmapToExtentsGo bs i (some (s, len)))) := by
  induction bs with
  | nil =>
    intro i
    constructor
    · simp [bitmapToExtentsGo]
    · intro s len _
      simp [bitmapToExtentsGo]
  | cons b bs ih =>
    intro i
    constructor
    · cases b with
      | false =>
        simp only [bitmapToExtentsGo, if_neg Bool.false_ne_true]
        exact (ih (i + 1)).1
      | true =>
        simp only [bitmapToExtentsGo, if_pos rfl]
        exact (ih (i + 1)).2 i 1 (by omega)
    · intro s len hsl
      cases b with
      | false =>
        simp only [bitmapToExtentsGo, if_neg Bool.false_ne_true]
        refine List.pairwise_cons.mpr ⟨?_, (ih (i + 1)).1⟩
        intro e he
        have h1 := (bitmapToExtentsGo_lb bs (i + 1)).1 e he
        simp only [BLOCK_SIZE_eq] at h1 ⊢
        omega
      | true =>
        simp only [bitmapToExtentsGo, if_pos rfl]
        exact (ih (i + 1)).2 s (len + 1) (by omega)

/-- Every emitted extent has offset and length multiples of the block
size, and positive length. -/
theorem bitmapToExtentsGo_shape (bs : List Bool) : ∀ i : Nat,
    (∀ e ∈ bitmapToExtentsGo bs i none,
      e.1 % BLOCK_SIZE = 0 ∧ e.2 % BLOCK_SIZE = 0 ∧ 0 < e.2) ∧
    (∀ s len, 0 < len → ∀ e ∈ bitmapToExtentsGo bs i (some (s, len)),
      e.1 % BLOCK_SIZE = 0 ∧ e.2 % BLOCK_SIZE = 0 ∧ 0 < e.2) := by
  induction bs with
  | nil =>
    intro i
    constructor
    · intro e he
      simp [bitmapToExtentsGo] at he
    · intro s len hlen e he
      simp [bitmapToExtentsGo] at he
      subst he
      refine ⟨Nat.mul_mod_left s BLOCK_SIZE, Nat.mul_mod_left len BLOCK_SIZE, ?_⟩
      exact Nat.mul_pos hlen (by decide)
  | cons b bs ih =>
    intro i
    constructor
    · intro e he
      cases b with
      | false =>
        simp only [bitmapToExtentsGo, if_neg Bool.false_ne_true] at he
        exact (ih (i + 1)).1 e he
      | true =>
        simp only [bitmapToExtentsGo, if_pos rfl] at he
        exact (ih (i + 1)).2 i 1 (by omega) e he
    · intro s len hlen e he
      cases b with
      | false =>
        simp only [bitmapToExtentsGo, if_neg Bool.false_ne_true, List.mem_cons] at he
        rcases he with he | he
        · subst he
          refine ⟨Nat.mul_mod_left s BLOCK_SIZE, Nat.mul_mod_left len BLOCK_SIZE, ?_⟩
          exact Nat.mul_pos hlen (by decide)
        · exact (ih (i + 1)).1 e he
      | true =>
        simp only [bitmapToExtentsGo, if_pos rfl] at he
        exact (ih (i + 1)).2 s (len + 1) (by omega) e he

/-- The lengths of the emitted extents sum to the number of set bits
(plus the open run) times the block size. -/
theorem bitmapToExtentsGo_sum (bs : List Bool) : ∀ i : Nat,
    ((bitmapToExtentsGo bs i none).map Prod.snd).sum = countTrue bs * BLOCK_SIZE ∧
    (∀ s len, ((bitmapToExtentsGo bs i (some (s, len))).map Prod.snd).sum
      = (countTrue bs + len) * BLOCK_SIZE) := by
  induction bs with
  | nil =>
    intro i
    constructor
    · simp [bitmapToExtentsGo, countTrue]
    · intro s len
      simp [bitmapToExtentsGo, countTrue]
  | cons b bs ih =>
    intro i
    constructor
    · cases b with
      | false =>
        have h1 := (ih (i + 1)).1
        simp only [BLOCK_SIZE_eq] at h1
        simp [bitmapToExtentsGo, countTrue, BLOCK_SIZE_eq, h1]
      | true =>
        have h1 := (ih (i + 1)).2 i 1
        simp only [BLOCK_SIZE_eq] at h1
        simp only [bitmapToExtentsGo, if_pos rfl, countTrue, BLOCK_SIZE_eq, h1]
        simp
        omega
    · intro s len
      cases b with
      | false =>
        have h1 := (ih (i + 1)).1
        simp only [BLOCK_SIZE_eq] at h1
        simp [bitmapToExtentsGo, countTrue, BLOCK_SIZE_eq, h1]
        omega
      | true =>
        have h1 := (ih (i + 1)).2 s (len + 1)
        simp only [BLOCK_SIZE_eq] at h1
        simp [bitmapToExtentsGo, countTrue, BLOCK_SIZE_eq, h1]
        omega

/-- The counting loop of `_get_changed_blocks_size` counts the set bits. -/
theorem changedBlocksLoop_eq (bs : List Bool) : ∀ modified : Nat,
    changedBlocksLoop bs modified = modified + countTrue bs := by
  induction bs with
  | nil => intro modified; simp [changedBlocksLoop, countTrue]
  | cons b bs ih =>
    intro modified
    cases b with
    | false => simp [changedBlocksLoop, countTrue, ih]
    | true =>
      simp [changedBlocksLoop, countTrue, ih]
      omega

/-- The statistics loop accumulates the sum of the extent lengths into
`changed_blocks_size`. -/
theorem extentStatsLoop_changed (l : List (Nat × Nat)) :
    ∀ mx mn changed n,
      (extentStatsLoop l mx mn changed n).2.2.1 = changed + (l.map Prod.snd).sum := by
  induction l with
  | nil => intro mx mn changed n; simp [extentStatsLoop]
  | cons e l ih =>
    intro mx mn changed n
    obtain ⟨o, len⟩ := e
    simp only [extentStatsLoop, ih, List.map_cons, List.sum_cons]
    omega

/-! ## Claim theorems about extent extraction -/

/-- Claim C1: for every bitmap, the extent sequence is non-overlapping
and strictly increasing by offset, every extent's offset and length
are exact multiples of the 64 KiB block size, and the extent lengths
sum to the `changed_blocks_size` reported by `get_statistics` for the
same bitmap. -/
theorem c1_extents_invariants (b : CbtBitmap) :
    List.Pairwise (fun e1 e2 : Nat × Nat => e1.1 + e1.2 ≤ e2.1 ∧ e1.1 < e2.1)
      (_bitmap_to_extents b.bitmap) ∧
    (∀ e ∈ _bitmap_to_extents b.bitmap, e.1 % 65536 = 0 ∧ e.2 % 65536 = 0) ∧
    ((_bitmap_to_extents b.bitmap).map Prod.snd).sum
      = (CbtBitmap.get_statistics b).changed_blocks_size := by
  have hpw := (bitmapToExtentsGo_pairwise b.bitmap 0).1
  have hshape := (bitmapToExtentsGo_shape b.bitmap 0).1
  refine ⟨?_, ?_, ?_⟩
  · refine List.Pairwise.imp_of_mem ?_ hpw
    intro e1 e2 h1 _ hr
    refine ⟨hr, ?_⟩
    have hpos := (hshape e1 h1).2.2
    omega
  · intro e he
    have h := hshape e he
    rw [BLOCK_SIZE_eq] at h
    exact ⟨h.1, h.2.1⟩
  · show _ = (_get_extent_stats (_bitmap_to_extents b.bitmap)).changed_blocks_size
    simp [_get_extent_stats, extentStatsLoop_changed]

/-- Claim C6: the disk size reported in the statistics is the number
of bits of the bitmap times the 64 KiB block size. -/
theorem c6_disk_size (b : CbtBitmap) :
    (CbtBitmap.get_statistics b).size = b.bitmap.length * 65536 := rfl

/-- Claim C10: the changed-bytes total obtained by reducing
`_get_extent_stats` over `_bitmap_to_extents` always equals the total
`_get_changed_blocks_size` computes directly by counting set bits. -/
theorem c10_changed_bytes_agree (b : CbtBitmap) :
    (_get_extent_stats (_bitmap_to_extents b.bitmap)).changed_blocks_size
      = _get_changed_blocks_size b.bitmap := by
  have hsum := (bitmapToExtentsGo_sum b.bitmap 0).1
  simp [_get_extent_stats, extentStatsLoop_changed, _get_changed_blocks_size,
    changedBlocksLoop_eq, _bitmap_to_extents, hsum]

/-! ## Lemmas about the extent generator -/

/-- An exhausted generator stays exhausted: draining it yields nothing
and leaves it unchanged. -/
theorem drainGo_exhausted (fuel : Nat) (g : ExtentGen) (h : g.next = none) :
    drainGo fuel g = ([], g) := by
  cases fuel with
  | zero => rfl
  | succ f => simp [drainGo, h]

/-- If resuming the generator raises `StopIteration` at once, the
extent sequence from the same state is empty. -/
theorem genNext_none_go_nil (bs : List Bool) : ∀ (i : Nat) (run : Option (Nat × Nat)),
    genNext bs i run = none → bitmapToExtentsGo bs i run = [] := by
  induction bs with
  | nil =>
    intro i run h
    cases run with
    | none => rfl
    | some p => simp [genNext] at h
  | cons b bs ih =>
    intro i run h
    cases run with
    | none =>
      cases b with
      | false =>
        simp only [genNext, if_neg Bool.false_ne_true] at h
        simp only [bitmapToExtentsGo, if_neg Bool.false_ne_true]
        exact ih (i + 1) none h
      | true =>
        simp only [genNext, if_pos rfl] at h
        simp only [bitmapToExtentsGo, if_pos rfl]
        exact ih (i + 1) (some (i, 1)) h
    | some p =>
      obtain ⟨s, len⟩ := p
      cases b with
      | false => simp [genNext] at h
      | true =>
        simp only [genNext, if_pos rfl] at h
        simp only [bitmapToExtentsGo, if_pos rfl]
        exact ih (i + 1) (some (s, len + 1)) h

/-- Draining is driven only by the resumption function: two states
with the same resumption behaviour drain to the same extents, and
their final states are both exhausted or both not. -/
theorem drainGo_congr (f : Nat) (g h : ExtentGen) (hnext : g.next = h.next) :
    (drainGo (f + 1) g).1 = (drainGo (f + 1) h).1 ∧
    ((drainGo (f + 1) g).2).next = ((drainGo (f + 1) h).2).next := by
  cases hg : h.next with
  | none =>
    rw [hg] at hnext
    simp [drainGo, hnext, hg]
  | some p =>
    obtain ⟨e, g'⟩ := p
    rw [hg] at hnext
    simp [drainGo, hnext, hg]

/-- Main generator lemma: with enough fuel, draining a generator in
state `⟨bs, i, run⟩` yields exactly the extent sequence of
`bitmapToExtentsGo`, and leaves the generator exhausted. -/
theorem drainGo_spec (bs : List Bool) : ∀ (i : Nat) (run : Option (Nat × Nat)) (fuel : Nat),
    bs.length < fuel →
    (drainGo fuel ⟨bs, i, run⟩).1 = bitmapToExtentsGo bs i run ∧
    ((drainGo fuel ⟨bs, i, run⟩).2).next = none := by
  induction bs with
  | nil =>
    intro i run fuel hfuel
    obtain ⟨f, rfl⟩ : ∃ f, fuel = f + 1 := ⟨fuel - 1, by omega⟩
    cases run with
    | none =>
      constructor
      · simp [drainGo, ExtentGen.next, genNext, bitmapToExtentsGo]
      · simp [drainGo, ExtentGen.next, genNext]
    | some p =>
      obtain ⟨s, len⟩ := p
      have hex : drainGo f (⟨[], i, none⟩ : ExtentGen) = ([], ⟨[], i, none⟩) :=
        drainGo_exhausted f _ rfl
      constructor
      · simp [drainGo, ExtentGen.next, genNext, bitmapToExtentsGo, hex]
      · simp [drainGo, ExtentGen.next, genNext, hex]
  | cons b bs ih =>
    intro i run fuel hfuel
    obtain ⟨f, rfl⟩ : ∃ f, fuel = f + 1 := ⟨fuel - 1, by omega⟩
    have hlen : bs.length < f + 1 := by simp at hfuel; omega
    cases run with
    | none =>
      cases b with
      | true =>
        have hnext : (⟨true :: bs, i, none⟩ : ExtentGen).next
            = (⟨bs, i + 1, some (i, 1)⟩ : ExtentGen).next := by
          simp [ExtentGen.next, genNext]
        have hcongr := drainGo_congr f _ _ hnext
        have hih := ih (i + 1) (some (i, 1)) (f + 1) hlen
        refine ⟨?_, ?_⟩
        · rw [hcongr.1, hih.1]
          simp [bitmapToExtentsGo]
        · rw [hcongr.2, hih.2]
      | false =>
        have hnext : (⟨false :: bs, i, none⟩ : ExtentGen).next
            = (⟨bs, i + 1, none⟩ : ExtentGen).next := by
          simp [ExtentGen.next, genNext]
        have hcongr := drainGo_congr f _ _ hnext
        have hih := ih (i + 1) none (f + 1) hlen
        refine ⟨?_, ?_⟩
        · rw [hcongr.1, hih.1]
          simp [bitmapToExtentsGo]
        · rw [hcongr.2, hih.2]
    | some p =>
      obtain ⟨s, len⟩ := p
      cases b with
      | true =>
        have hnext : (⟨true :: bs, i, some (s, len)⟩ : ExtentGen).next
            = (⟨bs, i + 1, some (s, len + 1)⟩ : ExtentGen).next := by
          simp [ExtentGen.next, genNext]
        have hcongr := drainGo_congr f _ _ hnext
        have hih := ih (i + 1) (some (s, len + 1)) (f + 1) hlen
        refine ⟨?_, ?_⟩
        · rw [hcongr.1, hih.1]
          simp [bitmapToExtentsGo]
        · rw [hcongr.2, hih.2]
      | false =>
        have hbs : bs.length < f := by simp at hfuel; omega
        have hih := ih (i + 1) none f hbs
        have hnext : (⟨false :: bs, i, some (s, len)⟩ : ExtentGen).next
            = some ((s * BLOCK_SIZE, len * BLOCK_SIZE), ⟨bs, i + 1, none⟩) := by
          simp [ExtentGen.next, genNext]
        refine ⟨?_, ?_⟩
        · simp only [drainGo, hnext]
          rw [hih.1]
          simp [bitmapToExtentsGo]
        · simp only [drainGo, hnext]
          exact hih.2

/-! ## Claim theorems about the generator (C7) -/

/-- Claim C7 counterexample: for the one-block bitmap `[true]`, the
generator returned by `get_extents`, traversed once and then traversed
a second time, does not yield the same extents again: the second
traversal is empty while the first yields one extent. -/
theorem c7_counterexample :
    ¬ (((((CbtBitmap.get_extents ⟨[true]⟩).drain).2).drain).1
        = ((CbtBitmap.get_extents ⟨[true]⟩).drain).1) := by decide

/-- Claim C7 (amended): `get_extents` returns a single-use generator,
not a restartable sequence: a (fresh) traversal yields exactly the
extent sequence of the bitmap — so two separate calls to `get_extents`
agree — but re-traversing the same exhausted generator object yields
nothing. -/
theorem c7_generator_single_use (b : CbtBitmap) :
    ((CbtBitmap.get_extents b).drain).1 = _bitmap_to_extents b.bitmap ∧
    (((CbtBitmap.get_extents b).drain).2).drain.1 = [] := by
  have h := drainGo_spec b.bitmap 0 none (b.bitmap.length + 1) (Nat.lt_succ_self _)
  constructor
  · exact h.1
  · show (drainGo _ (drainGo (b.bitmap.length + 1) ⟨b.bitmap, 0, none⟩).2).1 = []
    rw [drainGo_exhausted _ _ h.2]

/-! ## Lemmas about the chain resolver -/

/-- If the resolver's scan finds nothing, no snapshot of the list has
a local backup. -/
theorem filterMap_backups_none (backups : List Nat) (l : List Snap)
    (h : (l.filterMap
        (fun x => (_get_local_backup_of_snapshot backups x).map (fun b => (x, b)))).head?
      = none) :
    ∀ s ∈ l, _get_local_backup_of_snapshot backups s = none := by
  rw [List.head?_eq_none_iff, List.filterMap_eq_nil_iff] at h
  intro s hs
  have h1 := h s hs
  exact Option.map_eq_none'.mp h1

/-- If the resolver's scan over a list sorted newest-first returns a
pair, that pair's snapshot is in the list, its local backup is the
returned file, and no snapshot of the list with a local backup is
newer. -/
theorem filterMap_backups_some (backups : List Nat) :
    ∀ l : List Snap, List.Sorted timeDescLE l →
    ∀ (s : Snap) (bk : Nat),
      (l.filterMap
          (fun x => (_get_local_backup_of_snapshot backups x).map (fun b => (x, b)))).head?
        = some (s, bk) →
      s ∈ l ∧ _get_local_backup_of_snapshot backups s = some bk ∧
      ∀ s' ∈ l, _get_local_backup_of_snapshot backups s' ≠ none →
        s'.snapshot_time ≤ s.snapshot_time := by
  intro l
  induction l with
  | nil =>
    intro _ s bk h
    simp at h
  | cons x xs ih =>
    intro hsort s bk h
    rw [List.sorted_cons] at hsort
    cases hx : _get_local_backup_of_snapshot backups x with
    | some bx =>
      rw [List.filterMap_cons] at h
      simp only [hx, Option.map_some'] at h
      simp only [List.head?_cons, Option.some.injEq, Prod.mk.injEq] at h
      obtain ⟨rfl, rfl⟩ := h
      refine ⟨List.mem_cons_self x xs, hx, ?_⟩
      intro s' hs' _
      rcases List.mem_cons.mp hs' with rfl | hs'
      · exact le_refl _
      · exact hsort.1 s' hs'
    | none =>
      rw [List.filterMap_cons] at h
      simp only [hx, Option.map_none'] at h
      have hres := ih hsort.2 s bk h
      refine ⟨List.mem_cons_of_mem _ hres.1, hres.2.1, ?_⟩
      intro s' hs' hne
      rcases List.mem_cons.mp hs' with rfl | hs'
      · exact absurd hx hne
      · exact hres.2.2 s' hs' hne

/-! ## Claim theorems about the chain resolver (C4, C5) -/

/-- Claim C4: the chain resolver returns the (snapshot, local-file)
pair of the newest snapshot of the parent VDI having a local backup
file named by its UUID, or `none` when no snapshot has one; in
particular, with timestamps 1 < 2 < 3 and a local file only for the
snapshot at time 2, it returns the time-2 pair although the time-3
snapshot exists remotely. -/
theorem c4_latest_backup_spec (snapshots : List Snap) (backups : List Nat) :
    (∀ (s : Snap) (bk : Nat),
      _get_latest_backup_of_vdi snapshots backups = some (s, bk) →
      s ∈ snapshots ∧ _get_local_backup_of_snapshot backups s = some bk ∧
      ∀ s' ∈ snapshots, _get_local_backup_of_snapshot backups s' ≠ none →
        s'.snapshot_time ≤ s.snapshot_time) ∧
    (_get_latest_backup_of_vdi snapshots backups = none →
      ∀ s ∈ snapshots, _get_local_backup_of_snapshot backups s = none) ∧
    _get_latest_backup_of_vdi [⟨10, 1⟩, ⟨30, 3⟩, ⟨20, 2⟩] [20] = some (⟨20, 2⟩, 20) := by
  have hperm := List.perm_insertionSort timeDescLE snapshots
  have hsorted := List.sorted_insertionSort timeDescLE snapshots
  refine ⟨?_, ?_, by decide⟩
  · intro s bk h
    simp only [_get_latest_backup_of_vdi] at h
    have hres := filterMap_backups_some backups _ hsorted s bk h
    exact ⟨hperm.mem_iff.mp hres.1, hres.2.1,
      fun s' hs' hne => hres.2.2 s' (hperm.mem_iff.mpr hs') hne⟩
  · intro h s hs
    simp only [_get_latest_backup_of_vdi] at h
    exact filterMap_backups_none backups _ h s (hperm.mem_iff.mpr hs)

/-- Closed instance of claim C4's theorem at the three-snapshot
scenario, discharging its hypotheses at a concrete input. -/
theorem c4_witness :
    (⟨20, 2⟩ : Snap) ∈ ([⟨10, 1⟩, ⟨30, 3⟩, ⟨20, 2⟩] : List Snap) ∧
    _get_local_backup_of_snapshot [20] ⟨20, 2⟩ = some 20 ∧
    ∀ s' ∈ ([⟨10, 1⟩, ⟨30, 3⟩, ⟨20, 2⟩] : List Snap),
      _get_local_backup_of_snapshot [20] s' ≠ none →
        s'.snapshot_time ≤ (⟨20, 2⟩ : Snap).snapshot_time :=
  (c4_latest_backup_spec [⟨10, 1⟩, ⟨30, 3⟩, ⟨20, 2⟩] [20]).1 ⟨20, 2⟩ 20 (by decide)

/-- Claim C5 counterexample: the sort key is the timestamp only (no
secondary key), so with two snapshots of equal timestamp, both having
local backups, enumerating them in the two different orders makes the
resolver return two different pairs. -/
theorem c5_counterexample :
    _get_latest_backup_of_vdi [⟨100, 7⟩, ⟨200, 7⟩] [100, 200]
      ≠ _get_latest_backup_of_vdi [⟨200, 7⟩, ⟨100, 7⟩] [100, 200] := by decide

/-- Claim C5 (amended): the resolver sorts descending by timestamp
only, ties being broken by the stable sort's enumeration order; the
result is therefore independent of the enumeration order only when
the snapshots' timestamps are pairwise distinct. -/
theorem c5_deterministic_of_distinct_times (l₁ l₂ : List Snap) (backups : List Nat)
    (hperm : l₁.Perm l₂)
    (hne : l₁.Pairwise (fun a b => a.snapshot_time ≠ b.snapshot_time)) :
    _get_latest_backup_of_vdi l₁ backups = _get_latest_backup_of_vdi l₂ backups := by
  have hsort_eq : List.insertionSort timeDescLE l₁ = List.insertionSort timeDescLE l₂ := by
    have p1 := List.perm_insertionSort timeDescLE l₁
    have p2 := List.perm_insertionSort timeDescLE l₂
    have hsym : ∀ {x y : Snap},
        x.snapshot_time ≠ y.snapshot_time → y.snapshot_time ≠ x.snapshot_time :=
      fun h => Ne.symm h
    have hne₁ := (p1.pairwise_iff hsym).mpr hne
    have hne₂ := (p2.pairwise_iff hsym).mpr ((hperm.pairwise_iff hsym).mp hne)
    have hs1 : (List.insertionSort timeDescLE l₁).Pairwise timeDescLE :=
      List.sorted_insertionSort timeDescLE l₁
    have hs2 : (List.insertionSort timeDescLE l₂).Pairwise timeDescLE :=
      List.sorted_insertionSort timeDescLE l₂
    have hstrict1 : (List.insertionSort timeDescLE l₁).Pairwise
        (fun a b : Snap => b.snapshot_time < a.snapshot_time) :=
      (hs1.and hne₁).imp (fun h => lt_of_le_of_ne h.1 (Ne.symm h.2))
    have hstrict2 : (List.insertionSort timeDescLE l₂).Pairwise
        (fun a b : Snap => b.snapshot_time < a.snapshot_time) :=
      (hs2.and hne₂).imp (fun h => lt_of_le_of_ne h.1 (Ne.symm h.2))
    haveI : IsAntisymm Snap (fun a b : Snap => b.snapshot_time < a.snapshot_time) :=
      ⟨fun a b h1 h2 => absurd (h1.trans h2) (lt_irrefl _)⟩
    exact List.eq_of_perm_of_sorted (p1.trans (hperm.trans p2.symm)) hstrict1 hstrict2
  simp only [_get_latest_backup_of_vdi, hsort_eq]

/-- Closed instance of claim C5's amended theorem: two enumeration
orders of the same snapshots with distinct timestamps resolve to the
same pair. -/
theorem c5_witness :
    _get_latest_backup_of_vdi [⟨1, 1⟩, ⟨2, 2⟩] [1]
      = _get_latest_backup_of_vdi [⟨2, 2⟩, ⟨1, 1⟩] [1] :=
  c5_deterministic_of_distinct_times _ _ _
    (List.Perm.swap (⟨2, 2⟩ : Snap) (⟨1, 1⟩ : Snap) ([] : List Snap)) (by decide)

/-! ## Lemmas about event traces -/

theorem firstIdx_lt_length {α : Type} [DecidableEq α] {a : α} :
    ∀ {l : List α}, a ∈ l → firstIdx l a < l.length := by
  intro l
  induction l with
  | nil => intro h; simp at h
  | cons x xs ih =>
    intro h
    by_cases hx : x = a
    · simp [firstIdx, hx]
    · rcases List.mem_cons.mp h with rfl | h
      · exact absurd rfl hx
      · simp only [firstIdx, if_neg hx, List.length_cons]
        exact Nat.succ_lt_succ (ih h)

theorem firstIdx_append_left {α : Type} [DecidableEq α] {a : α} :
    ∀ {l₁ : List α} (l₂ : List α), a ∈ l₁ →
      firstIdx (l₁ ++ l₂) a = firstIdx l₁ a := by
  intro l₁
  induction l₁ with
  | nil => intro l₂ h; simp at h
  | cons x xs ih =>
    intro l₂ h
    by_cases hx : x = a
    · simp [firstIdx, hx]
    · rcases List.mem_cons.mp h with rfl | h
      · exact absurd rfl hx
      · simp only [List.cons_append, firstIdx, if_neg hx, List.append_eq, ih l₂ h]

theorem firstIdx_append_right {α : Type} [DecidableEq α] {a : α} :
    ∀ {l₁ : List α} (l₂ : List α), a ∉ l₁ →
      firstIdx (l₁ ++ l₂) a = l₁.length + firstIdx l₂ a := by
  intro l₁
  induction l₁ with
  | nil => intro l₂ _; simp [firstIdx]
  | cons x xs ih =>
    intro l₂ h
    have hx : x ≠ a := fun hxa => h (hxa ▸ List.mem_cons_self x xs)
    have hxs : a ∉ xs := fun hm => h (List.mem_cons_of_mem x hm)
    simp only [List.cons_append, firstIdx, if_neg hx, List.append_eq, ih l₂ hxs,
      List.length_cons]
    omega

/-- The per-VDI loop when every digest comparison passes: every backup
file is written and the loop succeeds. -/
theorem vdiBackupLoop_ok (ds : List Disk) (h : ∀ d ∈ ds, _compare_checksums d = true) :
    vdiBackupLoop ds = (ds.map (fun d => Event.wrote d.uuid), true) := by
  induction ds with
  | nil => rfl
  | cons d ds ih =>
    have hd := h d (List.mem_cons_self d ds)
    have hds := fun x hx => h x (List.mem_cons_of_mem d hx)
    simp [vdiBackupLoop, _vdi_backup, hd, ih hds]

/-- The per-VDI loop when a digest mismatch occurs after a prefix of
successful disks: the mismatching disk's file is written, then the
`AssertionError` propagates and the loop stops. -/
theorem vdiBackupLoop_fail (ds : List Disk) (d : Disk) (ds' : List Disk)
    (h : ∀ x ∈ ds, _compare_checksums x = true)
    (hd : _compare_checksums d = false) :
    vdiBackupLoop (ds ++ d :: ds')
      = (ds.map (fun x => Event.wrote x.uuid) ++ [Event.wrote d.uuid], false) := by
  induction ds with
  | nil => simp [vdiBackupLoop, _vdi_backup, hd]
  | cons x xs ih =>
    have hx := h x (List.mem_cons_self x xs)
    have hxs := fun y hy => h y (List.mem_cons_of_mem x hy)
    simp [vdiBackupLoop, _vdi_backup, hx, ih hxs]

/-- The whole `_vm_backup` trace in the all-successful case. -/
theorem vm_backup_ok (ds : List Disk) (h : ∀ d ∈ ds, _compare_checksums d = true) :
    _vm_backup ds = (ds.map (fun d => Event.wrote d.uuid)
      ++ Event.vmDestroyed :: ds.map retireEvent, true) := by
  simp [_vm_backup, vdiBackupLoop_ok ds h]

/-! ## Claim theorems about the orchestration (C3, C8, C9) -/

/-- Claim C3 counterexample: with a digest mismatch on the first of
two disks, the `assert` of `_compare_checksums` aborts `_vm_backup`
entirely: the second disk is never backed up and the server-side
cleanup (`VM.destroy`) is never reached, contrary to the claim that
the orchestration continues to the next disk and to cleanup. -/
theorem c3_counterexample :
    (_vm_backup [⟨1, true, 5, 6⟩, ⟨2, true, 7, 7⟩]).2 = false ∧
    Event.wrote 2 ∉ (_vm_backup [⟨1, true, 5, 6⟩, ⟨2, true, 7, 7⟩]).1 ∧
    Event.vmDestroyed ∉ (_vm_backup [⟨1, true, 5, 6⟩, ⟨2, true, 7, 7⟩]).1 := by decide

/-- Claim C3 (amended): a digest mismatch is a hard, non-retryable
failure for that disk, and it propagates: the orchestration stops at
the mismatching disk, the remaining disks are not backed up, and the
server-side cleanup is not reached. -/
theorem c3_mismatch_aborts (ds : List Disk) (d : Disk) (ds' : List Disk)
    (h : ∀ x ∈ ds, _compare_checksums x = true)
    (hd : _compare_checksums d = false) :
    _vm_backup (ds ++ d :: ds')
        = (ds.map (fun x => Event.wrote x.uuid) ++ [Event.wrote d.uuid], false) ∧
    Event.vmDestroyed ∉ (_vm_backup (ds ++ d :: ds')).1 := by
  have hloop := vdiBackupLoop_fail ds d ds' h hd
  have hmain : _vm_backup (ds ++ d :: ds')
      = (ds.map (fun x => Event.wrote x.uuid) ++ [Event.wrote d.uuid], false) := by
    simp [_vm_backup, hloop]
  refine ⟨hmain, ?_⟩
  rw [hmain]
  intro hmem
  rcases List.mem_append.mp hmem with hmem | hmem
  · obtain ⟨x, _, hx⟩ := List.mem_map.mp hmem
    exact Event.noConfusion hx
  · simp at hmem

/-- Closed instance of claim C3's amended theorem. -/
theorem c3_witness :
    _vm_backup [⟨2, true, 7, 7⟩, ⟨1, true, 5, 6⟩, ⟨3, false, 0, 0⟩]
        = ([Event.wrote 2, Event.wrote 1], false) ∧
    Event.vmDestroyed ∉ (_vm_backup [⟨2, true, 7, 7⟩, ⟨1, true, 5, 6⟩, ⟨3, false, 0, 0⟩]).1 :=
  c3_mismatch_aborts [⟨2, true, 7, 7⟩] ⟨1, true, 5, 6⟩ [⟨3, false, 0, 0⟩]
    (by decide) (by decide)

/-- Claim C8: when every disk of the snapshot has been processed
successfully, the VM snapshot is destroyed before any disk is
released, and each disk is then retired via `VDI.data_destroy` when
CBT is enabled on it and via `VDI.destroy` otherwise. -/
theorem c8_cleanup_order (ds : List Disk) (h : ∀ d ∈ ds, _compare_checksums d = true) :
    ∀ d ∈ ds,
      occursBefore (_vm_backup ds).1 (Event.wrote d.uuid) Event.vmDestroyed ∧
      occursBefore (_vm_backup ds).1 Event.vmDestroyed
        (if d.cbt_enabled then Event.dataDestroyed d.uuid else Event.vdiDestroyed d.uuid) := by
  intro d hd
  have htr : (_vm_backup ds).1 = ds.map (fun d => Event.wrote d.uuid)
      ++ Event.vmDestroyed :: ds.map retireEvent := by
    rw [vm_backup_ok ds h]
  rw [htr]
  have hw : Event.wrote d.uuid ∈ ds.map (fun d => Event.wrote d.uuid) :=
    List.mem_map_of_mem _ hd
  have hvm_notin : Event.vmDestroyed ∉ ds.map (fun d => Event.wrote d.uuid) := by
    intro hmem
    obtain ⟨x, _, hx⟩ := List.mem_map.mp hmem
    exact Event.noConfusion hx
  have hvm_first : firstIdx (ds.map (fun d => Event.wrote d.uuid)
      ++ Event.vmDestroyed :: ds.map retireEvent) Event.vmDestroyed
      = (ds.map (fun d => Event.wrote d.uuid)).length := by
    rw [firstIdx_append_right _ hvm_notin]
    simp [firstIdx]
  have hretire : retireEvent d
      = (if d.cbt_enabled then Event.dataDestroyed d.uuid else Event.vdiDestroyed d.uuid) := rfl
  have hr_notin : (if d.cbt_enabled then Event.dataDestroyed d.uuid
      else Event.vdiDestroyed d.uuid) ∉ ds.map (fun d => Event.wrote d.uuid) := by
    intro hmem
    obtain ⟨x, _, hx⟩ := List.mem_map.mp hmem
    cases hcb : d.cbt_enabled <;> rw [hcb] at hx <;> simp at hx
  have hr_ne : Event.vmDestroyed ≠ (if d.cbt_enabled then Event.dataDestroyed d.uuid
      else Event.vdiDestroyed d.uuid) := by
    cases hcb : d.cbt_enabled <;> simp
  have hr_mem : (if d.cbt_enabled then Event.dataDestroyed d.uuid
      else Event.vdiDestroyed d.uuid) ∈ ds.map retireEvent := by
    rw [← hretire]
    exact List.mem_map_of_mem _ hd
  constructor
  · refine ⟨List.mem_append_left _ hw, List.mem_append_right _ (List.mem_cons_self _ _), ?_⟩
    rw [firstIdx_append_left _ hw, hvm_first]
    exact firstIdx_lt_length hw
  · refine ⟨List.mem_append_right _ (List.mem_cons_self _ _),
      List.mem_append_right _ (List.mem_cons_of_mem _ hr_mem), ?_⟩
    rw [hvm_first, firstIdx_append_right _ hr_notin]
    simp only [firstIdx, if_neg hr_ne]
    omega

/-- Closed instance of claim C8's theorem: two disks, one with CBT
enabled (retired via data-destroy) after a successful backup. -/
theorem c8_witness :
    occursBefore (_vm_backup [⟨1, true, 5, 5⟩, ⟨2, false, 7, 7⟩]).1
      (Event.wrote 1) Event.vmDestroyed ∧
    occursBefore (_vm_backup [⟨1, true, 5, 5⟩, ⟨2, false, 7, 7⟩]).1
      Event.vmDestroyed (Event.dataDestroyed 1) := by
  simpa using c8_cleanup_order [⟨1, true, 5, 5⟩, ⟨2, false, 7, 7⟩] (by decide)
    ⟨1, true, 5, 5⟩ (by decide)

/-- Claim C9 counterexample: in `backup`, `enable_cbt` runs before
`_save_vm_metadata`, so the metadata blob is *not* written before
change tracking is enabled: the claimed ordering fails on a one-disk
VM. -/
theorem c9_counterexample :
    ¬ (occursBefore (backup [⟨1, true, 5, 5⟩] [⟨1, true, 5, 5⟩]).1
        Event.metadataSaved (Event.cbtEnabled 1) ∧
       occursBefore (backup [⟨1, true, 5, 5⟩] [⟨1, true, 5, 5⟩]).1
        Event.metadataSaved Event.snapshotTaken) := by decide

/-- Claim C9 (amended): the VM configuration metadata blob is fetched
and written into the backup directory at the CBTEnabling→Snapshotting
boundary: after change tracking is enabled on the VM's disks and
before the VM snapshot is created. -/
theorem c9_metadata_after_cbt (vmDisks snapDisks : List Disk) (d : Disk)
    (hd : d ∈ vmDisks) :
    occursBefore (backup vmDisks snapDisks).1 (Event.cbtEnabled d.uuid)
      Event.metadataSaved ∧
    occursBefore (backup vmDisks snapDisks).1 Event.metadataSaved
      Event.snapshotTaken := by
  have htr : (backup vmDisks snapDisks).1
      = vmDisks.map (fun d => Event.cbtEnabled d.uuid)
        ++ Event.dirCreated :: Event.metadataSaved :: Event.snapshotTaken
        :: (_vm_backup snapDisks).1 := rfl
  rw [htr]
  have hc : Event.cbtEnabled d.uuid ∈ vmDisks.map (fun d => Event.cbtEnabled d.uuid) :=
    List.mem_map_of_mem _ hd
  have hm_notin : Event.metadataSaved ∉ vmDisks.map (fun d => Event.cbtEnabled d.uuid) := by
    intro hmem
    obtain ⟨x, _, hx⟩ := List.mem_map.mp hmem
    exact Event.noConfusion hx
  have hs_notin : Event.snapshotTaken ∉ vmDisks.map (fun d => Event.cbtEnabled d.uuid) := by
    intro hmem
    obtain ⟨x, _, hx⟩ := List.mem_map.mp hmem
    exact Event.noConfusion hx
  have hm_first : firstIdx (vmDisks.map (fun d => Event.cbtEnabled d.uuid)
      ++ Event.dirCreated :: Event.metadataSaved :: Event.snapshotTaken
      :: (_vm_backup snapDisks).1) Event.metadataSaved
      = (vmDisks.map (fun d => Event.cbtEnabled d.uuid)).length + 1 := by
    rw [firstIdx_append_right _ hm_notin]
    simp [firstIdx]
  have hs_first : firstIdx (vmDisks.map (fun d => Event.cbtEnabled d.uuid)
      ++ Event.dirCreated :: Event.metadataSaved :: Event.snapshotTaken
      :: (_vm_backup snapDisks).1) Event.snapshotTaken
      = (vmDisks.map (fun d => Event.cbtEnabled d.uuid)).length + 2 := by
    rw [firstIdx_append_right _ hs_notin]
    simp [firstIdx]
  constructor
  · refine ⟨List.mem_append_left _ hc,
      List.mem_append_right _ (by simp), ?_⟩
    rw [firstIdx_append_left _ hc, hm_first]
    have := firstIdx_lt_length hc
    omega
  · refine ⟨List.mem_append_right _ (by simp),
      List.mem_append_right _ (by simp), ?_⟩
    rw [hm_first, hs_first]
    omega

/-- Closed instance of claim C9's amended theorem. -/
theorem c9_witness :
    occursBefore (backup [⟨1, true, 5, 5⟩] [⟨1, true, 5, 5⟩]).1
      (Event.cbtEnabled 1) Event.metadataSaved ∧
    occursBefore (backup [⟨1, true, 5, 5⟩] [⟨1, true, 5, 5⟩]).1
      Event.metadataSaved Event.snapshotTaken :=
  c9_metadata_after_cbt [⟨1, true, 5, 5⟩] [⟨1, true, 5, 5⟩] ⟨1, true, 5, 5⟩ (by decide)

/-! ## Claim theorems about the transfer engine (C2) -/

/-- With a positive chunk size and enough steps, chunked streaming
reproduces the disk. -/
theorem fullChunks_eq (chunkSize : Nat) (hc : 0 < chunkSize) :
    ∀ (fuel : Nat) (disk : List Nat), disk.length ≤ fuel →
      fullChunks chunkSize fuel disk = disk := by
  intro fuel
  induction fuel with
  | zero =>
    intro disk hlen
    have : disk = [] := List.eq_nil_of_length_eq_zero (by omega)
    subst this
    rfl
  | succ f ih =>
    intro disk hlen
    cases disk with
    | nil => rfl
    | cons x xs =>
      show (x :: xs).take chunkSize ++ fullChunks chunkSize f ((x :: xs).drop chunkSize)
        = x :: xs
      rw [ih ((x :: xs).drop chunkSize) (by simp at hlen ⊢; omega)]
      exact List.take_append_drop chunkSize (x :: xs)

/-- A full transfer with a positive chunk size reproduces the current
disk content exactly. -/
theorem full_vdi_backup_eq (chunkSize : Nat) (disk : List Nat) (hc : 0 < chunkSize) :
    full_vdi_backup chunkSize disk = disk := by
  rw [full_vdi_backup, if_neg (Nat.pos_iff_ne_zero.mp hc)]
  exact fullChunks_eq chunkSize hc disk.length disk le_rfl

/-- Claim C2: for every disk content, extent layout and prior local
backup verified against the prior snapshot's content, if the extents
cover every byte that differs between the prior snapshot and the
current disk, the incremental transfer produces a backup byte-identical
to a full transfer of the current disk. -/
theorem c2_incremental_eq_full (chunkSize : Nat) (extents : List (Nat × Nat))
    (current prior priorSnap : List Nat)
    (hchunk : 0 < chunkSize)
    (hverified : prior = priorSnap)
    (hunchanged : ∀ i, i < current.length → inSomeExtent extents i = false →
      current.getD i 0 = priorSnap.getD i 0) :
    incremental_vdi_backup extents current prior = full_vdi_backup chunkSize current := by
  rw [full_vdi_backup_eq chunkSize current hchunk]
  subst hverified
  apply List.ext_getElem
  · simp [incremental_vdi_backup]
  · intro n h1 h2
    simp only [incremental_vdi_backup, List.getElem_map, List.getElem_range]
    have hn : n < current.length := by
      simpa [incremental_vdi_backup] using h1
    cases hext : inSomeExtent extents n with
    | true =>
      simp only [if_pos rfl]
      exact List.getD_eq_getElem current 0 hn
    | false =>
      simp only [if_neg Bool.false_ne_true]
      rw [← hunchanged n hn hext]
      exact List.getD_eq_getElem current 0 hn

/-- Closed instance of claim C2's theorem: an incremental transfer
over the extent layout `[(1, 2)]` equals the full transfer. -/
theorem c2_witness :
    incremental_vdi_backup [(1, 2)] [10, 20, 30, 40] [10, 99, 98, 40]
      = full_vdi_backup 2 [10, 20, 30, 40] :=
  c2_incremental_eq_full 2 [(1, 2)] [10, 20, 30, 40] [10, 99, 98, 40] [10, 99, 98, 40]
    (by decide) rfl (by decide)
